import Mathlib

/-!
Verification development for the APOE4-Amyloid knowledge-graph pipeline.

The repository's pipeline has two batch scripts:

* `extract_triples.py` — calls a text-completion service per corpus line,
  strips a markdown code fence from the response, parses it as JSON, and
  retries failures up to `max_retries` times with a fixed sleep; the driver
  loop accumulates all parsed triples and dumps them to a batch file.
* `load_neo4j.py` — reads the triple batch and the corpus, validates each
  triple by truthiness of its three fields, guesses entity labels from the
  names, sanitizes the relation string, derives an evidence line by position
  modulo corpus length, and upserts nodes and edges via Cypher MERGE,
  truncating evidence to 250 characters.

Python strings are modelled as Lean `String` (a list of unicode code
points), Python `None`-able values as `Option`, Python truthiness of an
optional string explicitly, and the Neo4j store as a labelled graph with a
node list and an edge list whose MERGE semantics is create-if-absent /
update-evidence-if-present.
-/

/-! ## Python string primitives -/

/-- Model of the Python substring test `pat in s`, on code-point lists:
true when `pat` occurs contiguously in `s`. -/
def listIn (pat : List Char) : List Char → Bool
  | [] => pat.isEmpty
  | c :: rest => pat.isPrefixOf (c :: rest) || listIn pat rest

/-- Model of the Python substring test `pat in s` on strings. -/
def strIn (pat s : String) : Bool := listIn pat.data s.data

/-- Worker for the model of Python `s.split(sep)`.  The `fuel` argument
makes the recursion structural; every use supplies `fuel ≥ l.length`, for
which the fuel never runs out (each step consumes at least one character),
so the `fuel = 0` fallback is unreachable. -/
def pySplitGo (sep : List Char) : Nat → List Char → List (List Char)
  | _, [] => [[]]
  | 0, l => [l]
  | fuel + 1, c :: rest =>
    if sep ≠ [] ∧ sep.isPrefixOf (c :: rest) then
      [] :: pySplitGo sep fuel (rest.drop (sep.length - 1))
    else
      match pySplitGo sep fuel rest with
      | [] => [[c]]
      | seg :: segs => (c :: seg) :: segs

/-- Model of Python `s.split(sep)` on code-point lists: the list of
segments between the non-overlapping left-to-right occurrences of `sep`.
The structural fuel of `pySplitGo` is started at the input length, which
never runs out because every step consumes at least one character. -/
def pySplitL (sep l : List Char) : List (List Char) := pySplitGo sep l.length l

/-- Worker for the model of Python `s.replace(old, new)`, with structural
fuel as in `pySplitGo`. -/
def replaceGo (old new : List Char) : Nat → List Char → List Char
  | _, [] => []
  | 0, l => l
  | fuel + 1, c :: rest =>
    if old ≠ [] ∧ old.isPrefixOf (c :: rest) then
      new ++ replaceGo old new fuel (rest.drop (old.length - 1))
    else
      c :: replaceGo old new fuel rest

/-- Model of Python `s.replace(old, new)` for a non-empty `old`:
replace every non-overlapping occurrence, scanning left to right. -/
def replaceAll (old new l : List Char) : List Char := replaceGo old new l.length l

/-- Model of the Python slice `s[:n]` on a string. -/
def pyTake (n : Nat) (s : String) : String := ⟨s.data.take n⟩

/-- Model of Python `s.lower()` (per-code-point lowering; exact on the
ASCII entity names the loader sees). -/
def pyLower (s : String) : String := ⟨s.data.map Char.toLower⟩

/-- Model of Python `s.upper()` (per-code-point uppering; exact on the
ASCII relation phrases the loader sees). -/
def pyUpper (s : String) : String := ⟨s.data.map Char.toUpper⟩

/-- ASCII whitespace, the characters Python `str.strip()` removes from the
corpus lines. -/
def pyIsSpace (c : Char) : Bool :=
  c == ' ' || c == '\t' || c == '\n' || c == '\x0d' || c == '\x0b' || c == '\x0c'

/-- Model of Python `s.strip()`: drop whitespace at both ends. -/
def pyStrip (s : String) : String :=
  ⟨((s.data.dropWhile pyIsSpace).reverse.dropWhile pyIsSpace).reverse⟩

/-! ## Graph-store model (`load_neo4j.py`)

The Neo4j store is modelled as a list of nodes — each identified by its
label and its `name` property, which is exactly the identity Cypher
`MERGE (a:Label {name: $s})` matches on — and a list of directed edges,
each identified by source node, the `type` property of the `RELATION`
relationship, and destination node, and carrying an `evidence` attribute.
`MERGE` is create-if-absent; the subsequent `SET rel.evidence` overwrites
the evidence of the matched edge. -/

/-- A Neo4j node as the loader creates it: a label and a `name` property. -/
structure NodeRef where
  label : String
  name : String
deriving DecidableEq, Repr

/-- A `RELATION` edge with its `type` tag and `evidence` attribute. -/
structure Edge where
  src : NodeRef
  relType : String
  dst : NodeRef
  evidence : String
deriving DecidableEq, Repr

/-- The graph store contents. -/
structure GraphStore where
  nodes : List NodeRef
  edges : List Edge
deriving DecidableEq, Repr

/-- Cypher `MERGE (a:Label {name: ...})`: create the node only if it does
not already exist. -/
def mergeNode (ns : List NodeRef) (n : NodeRef) : List NodeRef :=
  if n ∈ ns then ns else ns ++ [n]

/-- Does an edge with the given (source, relation-type, destination) key
exist in the edge list? -/
def hasEdge (es : List Edge) (a : NodeRef) (r : String) (b : NodeRef) : Bool :=
  es.any fun e => decide (e.src = a ∧ e.relType = r ∧ e.dst = b)

/-- Cypher `MERGE (a)-[rel:RELATION {type: $r}]->(b)` followed by
`SET rel.evidence = $evidence`: if an edge with that key exists, only its
evidence is overwritten; otherwise the edge is created. -/
def mergeEdge (es : List Edge) (a : NodeRef) (r : String) (b : NodeRef)
    (ev : String) : List Edge :=
  if hasEdge es a r b then
    es.map fun e =>
      if decide (e.src = a ∧ e.relType = r ∧ e.dst = b) then
        ⟨e.src, e.relType, e.dst, ev⟩
      else e
  else es ++ [⟨a, r, b, ev⟩]

/-- Embedding of `add_triple` (load_neo4j.py, lines 27-35): MERGE both
nodes, MERGE the edge, SET its evidence truncated to 250 characters
(`evidence[:250]`). -/
def add_triple (st : GraphStore) (s s_label r o o_label evidence : String) :
    GraphStore :=
  let a : NodeRef := ⟨s_label, s⟩
  let b : NodeRef := ⟨o_label, o⟩
  ⟨mergeNode (mergeNode st.nodes a) b,
   mergeEdge st.edges a r b (pyTake 250 evidence)⟩

/-- Embedding of `guess_label` (load_neo4j.py, lines 15-25): lowercase the
name and test four keyword sets in priority order. -/
def guess_label (name : String) : String :=
  let lowers := pyLower name
  if ["apoe", "psen", "gene"].any (fun term => strIn term lowers) then "Gene"
  else if ["amyloid", "plaque", "clearance", "pathology", "tau",
      "neuroinflammation"].any (fun term => strIn term lowers) then "Pathology"
  else if ["alzheimer", "dementia"].any (fun term => strIn term lowers) then
    "Disease"
  else if ["memory", "cognitive", "decline"].any (fun term => strIn term lowers)
    then "Symptom"
  else "Other"

/-- Embedding of the relation sanitization (load_neo4j.py, line 63):
`rel.upper().replace(" ", "_").replace("-", "_")`. -/
def relSanitize (r : String) : String :=
  ⟨replaceAll ['-'] ['_'] (replaceAll [' '] ['_'] (pyUpper r).data)⟩

/-- A parsed batch entry: `t.get("subject")` etc. may be absent. -/
structure Triple where
  subject : Option String
  relation : Option String
  obj : Option String
deriving DecidableEq, Repr

/-- Python truthiness of an optional string: `None` and `""` are falsy. -/
def truthy : Option String → Bool
  | none => false
  | some s => !(s == "")

/-- The validation `subj and rel and obj` of the loader (line 58). -/
def triValid (t : Triple) : Bool :=
  truthy t.subject && truthy t.relation && truthy t.obj

/-- Embedding of the evidence derivation (load_neo4j.py, line 66):
`corpus_lines[idx % len(corpus_lines)] if corpus_lines else "No evidence text available."`. -/
def evidenceFor (corpus : List String) (idx : Nat) : String :=
  if corpus ≠ [] then corpus.getD (idx % corpus.length) ""
  else "No evidence text available."

/-- One `session.execute_write(add_triple, ...)` call of the loader loop
(lines 68-74) for a triple that passed validation. -/
def applyTriple (corpus : List String) (idx : Nat) (st : GraphStore)
    (t : Triple) : GraphStore :=
  let subj := t.subject.getD ""
  let rel := t.relation.getD ""
  let ob := t.obj.getD ""
  add_triple st subj (guess_label subj) (relSanitize rel) ob (guess_label ob)
    (evidenceFor corpus idx)

/-- Result of the loader's main loop: the final store, the indices of the
triples skipped with a warning, and the number of triples written. -/
structure LoadResult where
  store : GraphStore
  skipped : List Nat
  loaded : Nat
deriving DecidableEq, Repr

/-- Embedding of the loader loop (load_neo4j.py, lines 51-74), started at
enumeration index `idx`: validate each triple by truthiness, warn and
`continue` on failure, otherwise upsert via `add_triple`. -/
def runLoadFrom (corpus : List String) : Nat → GraphStore → List Triple →
    LoadResult
  | _, st, [] => ⟨st, [], 0⟩
  | idx, st, t :: rest =>
    if triValid t then
      let r := runLoadFrom corpus (idx + 1) (applyTriple corpus idx st t) rest
      ⟨r.store, r.skipped, r.loaded + 1⟩
    else
      let r := runLoadFrom corpus (idx + 1) st rest
      ⟨r.store, idx :: r.skipped, r.loaded⟩

/-- The loader run on a fresh store (the script clears the database before
loading, so the loop always starts from an empty graph). -/
def runLoad (ts : List Triple) (corpus : List String) : LoadResult :=
  runLoadFrom corpus 0 ⟨[], []⟩ ts

/-- The count the load pass reports: it prints
`f"Loading {len(triples)} triples into Neo4j..."` before the loop
(line 49), i.e. the size of the input batch. -/
def reportedCount (ts : List Triple) : Nat := ts.length

/-! ## JSON model (`json.loads` in `extract_triples.py`)

A JSON value and a recursive-descent parser modelling Python `json.loads`
on the payloads the pipeline sees: null, booleans, numbers (kept as their
lexeme; the full JSON number grammar is recognised), strings with the
standard escapes, arrays and objects, with strict-JSON whitespace and
full-input consumption.  Lone-surrogate `\uXXXX` escapes, which Lean
characters cannot represent, are rejected. -/

inductive Json where
  | jnull
  | jbool (b : Bool)
  | jnum (raw : String)
  | jstr (s : String)
  | jarr (elems : List Json)
  | jobj (fields : List (String × Json))

/-- The four whitespace characters strict JSON allows between tokens. -/
def skipWs (l : List Char) : List Char :=
  l.dropWhile fun c => c == ' ' || c == '\t' || c == '\n' || c == '\x0d'

/-- Value of a hexadecimal digit. -/
def hexVal (c : Char) : Option Nat :=
  if 48 ≤ c.toNat ∧ c.toNat ≤ 57 then some (c.toNat - 48)
  else if 97 ≤ c.toNat ∧ c.toNat ≤ 102 then some (c.toNat - 87)
  else if 65 ≤ c.toNat ∧ c.toNat ≤ 70 then some (c.toNat - 55)
  else none

/-- ASCII decimal digit test. -/
def isDigitCh (c : Char) : Bool := 48 ≤ c.toNat && c.toNat ≤ 57

/-- Parse a JSON string body (the opening quote already consumed),
returning the decoded characters and the input after the closing quote.
Structural fuel as in `pySplitGo`; unescaped control characters are
rejected as in strict `json.loads`. -/
def parseJStr : Nat → List Char → Option (List Char × List Char)
  | 0, _ => none
  | _ + 1, [] => none
  | fuel + 1, c :: rest =>
    if c == '"' then some ([], rest)
    else if c == '\\' then
      match rest with
      | [] => none
      | e :: rest2 =>
        if e == '"' then (parseJStr fuel rest2).map fun p => ('"' :: p.1, p.2)
        else if e == '\\' then
          (parseJStr fuel rest2).map fun p => ('\\' :: p.1, p.2)
        else if e == '/' then (parseJStr fuel rest2).map fun p => ('/' :: p.1, p.2)
        else if e == 'b' then
          (parseJStr fuel rest2).map fun p => ('\x08' :: p.1, p.2)
        else if e == 'f' then
          (parseJStr fuel rest2).map fun p => ('\x0c' :: p.1, p.2)
        else if e == 'n' then (parseJStr fuel rest2).map fun p => ('\n' :: p.1, p.2)
        else if e == 'r' then
          (parseJStr fuel rest2).map fun p => ('\x0d' :: p.1, p.2)
        else if e == 't' then (parseJStr fuel rest2).map fun p => ('\t' :: p.1, p.2)
        else if e == 'u' then
          match rest2 with
          | h1 :: h2 :: h3 :: h4 :: rest3 =>
            match hexVal h1, hexVal h2, hexVal h3, hexVal h4 with
            | some a, some b, some c2, some d =>
              let n := ((a * 16 + b) * 16 + c2) * 16 + d
              if 55296 ≤ n ∧ n < 57344 then none
              else (parseJStr fuel rest3).map fun p => (Char.ofNat n :: p.1, p.2)
            | _, _, _, _ => none
          | _ => none
        else none
    else if c.toNat < 32 then none
    else (parseJStr fuel rest).map fun p => (c :: p.1, p.2)

/-- Parse an optional JSON fraction part, returning its lexeme (possibly
empty) and the rest. -/
def parseFracPart : List Char → Option (List Char × List Char)
  | '.' :: r =>
    let ds := r.takeWhile isDigitCh
    if ds.isEmpty then none else some ('.' :: ds, r.dropWhile isDigitCh)
  | l => some ([], l)

/-- Parse an optional JSON exponent part, returning its lexeme (possibly
empty) and the rest. -/
def parseExpPart : List Char → Option (List Char × List Char)
  | [] => some ([], [])
  | c :: r =>
    if c == 'e' || c == 'E' then
      let sr : List Char × List Char :=
        match r with
        | s :: r3 => if s == '+' || s == '-' then ([s], r3) else ([], r)
        | [] => ([], [])
      let ds := sr.2.takeWhile isDigitCh
      if ds.isEmpty then none
      else some (c :: (sr.1 ++ ds), sr.2.dropWhile isDigitCh)
    else some ([], c :: r)

/-- Parse a JSON number, returning its lexeme and the rest of the input. -/
def parseNum (l : List Char) : Option (List Char × List Char) :=
  let sl : List Char × List Char :=
    match l with
    | '-' :: r => (['-'], r)
    | _ => ([], l)
  match sl.2 with
  | [] => none
  | c :: r =>
    let intRes : Option (List Char × List Char) :=
      if c == '0' then some (['0'], r)
      else if isDigitCh c then
        some (c :: r.takeWhile isDigitCh, r.dropWhile isDigitCh)
      else none
    match intRes with
    | none => none
    | some (ip, r2) =>
      match parseFracPart r2 with
      | none => none
      | some (fp, r3) =>
        match parseExpPart r3 with
        | none => none
        | some (ep, r4) => some (sl.1 ++ ip ++ fp ++ ep, r4)

mutual

/-- Parse one JSON value, returning it and the remaining input. -/
def parseVal : Nat → List Char → Option (Json × List Char)
  | 0, _ => none
  | fuel + 1, l =>
    match skipWs l with
    | [] => none
    | c :: rest =>
      if c == '"' then
        (parseJStr (rest.length + 1) rest).map fun p => (Json.jstr ⟨p.1⟩, p.2)
      else if c == '[' then
        match skipWs rest with
        | ']' :: r2 => some (Json.jarr [], r2)
        | l2 => (parseArrItems fuel l2).map fun p => (Json.jarr p.1, p.2)
      else if c == '{' then
        match skipWs rest with
        | '}' :: r2 => some (Json.jobj [], r2)
        | l2 => (parseObjItems fuel l2).map fun p => (Json.jobj p.1, p.2)
      else if c == 't' then
        match rest with
        | 'r' :: 'u' :: 'e' :: r2 => some (Json.jbool true, r2)
        | _ => none
      else if c == 'f' then
        match rest with
        | 'a' :: 'l' :: 's' :: 'e' :: r2 => some (Json.jbool false, r2)
        | _ => none
      else if c == 'n' then
        match rest with
        | 'u' :: 'l' :: 'l' :: r2 => some (Json.jnull, r2)
        | _ => none
      else (parseNum (c :: rest)).map fun p => (Json.jnum ⟨p.1⟩, p.2)

/-- Parse the non-empty element list of a JSON array, up to and including
the closing bracket. -/
def parseArrItems : Nat → List Char → Option (List Json × List Char)
  | 0, _ => none
  | fuel + 1, l =>
    match parseVal fuel l with
    | none => none
    | some (v, r) =>
      match skipWs r with
      | ',' :: r2 => (parseArrItems fuel r2).map fun p => (v :: p.1, p.2)
      | ']' :: r2 => some ([v], r2)
      | _ => none

/-- Parse the non-empty field list of a JSON object, up to and including
the closing brace. -/
def parseObjItems : Nat → List Char → Option (List (String × Json) × List Char)
  | 0, _ => none
  | fuel + 1, l =>
    match skipWs l with
    | '"' :: r =>
      match parseJStr (r.length + 1) r with
      | none => none
      | some (k, r2) =>
        match skipWs r2 with
        | ':' :: r3 =>
          match parseVal fuel r3 with
          | none => none
          | some (v, r4) =>
            match skipWs r4 with
            | ',' :: r5 =>
              (parseObjItems fuel r5).map fun p => ((⟨k⟩, v) :: p.1, p.2)
            | '}' :: r5 => some ([(⟨k⟩, v)], r5)
            | _ => none
        | _ => none
    | _ => none

end

/-- Model of `json.loads`: parse one value and require that only
whitespace follows it. -/
def jsonParse (s : String) : Option Json :=
  match parseVal (2 * s.data.length + 2) s.data with
  | some (v, r) => if skipWs r = [] then some v else none
  | none => none

/-! ## Extractor model (`extract_triples.py`) -/

/-- Embedding of the markdown-fence cleaning (extract_triples.py,
lines 61-62): if the marker occurs, keep what stands between the first
occurrence of the marker and the next fence,
`content.split(x)[1].split(y)[0]` with the json-tagged marker as `x` and
the bare fence as `y`. -/
def cleanContent (content : String) : String :=
  if strIn "```json" content then
    let afterTag := (pySplitL "```json".data content.data).getD 1 []
    ⟨(pySplitL "```".data afterTag).getD 0 []⟩
  else content

/-- Outcome of one call to the completion service: an exception from the
request (any transport or service error), or a returned content string. -/
inductive Attempt where
  | failure
  | response (content : String)

/-- Observable trace of one `extract_triples` call: the returned value,
the number of attempts made, and the number of `time.sleep(5)` delays
executed (one after every failed attempt). -/
structure ExtractTrace where
  result : Json
  attempts : Nat
  sleeps : Nat

/-- Embedding of the retry loop of `extract_triples` (extract_triples.py,
lines 51-75): on a service exception or a JSON parse failure, sleep and
continue with the next attempt; on a successful parse return the parsed
value; after the last attempt return the empty list.  `service n` is the
outcome of attempt number `n`. -/
def extractLoop (service : Nat → Attempt) : Nat → Nat → ExtractTrace
  | _, 0 => ⟨Json.jarr [], 0, 0⟩
  | attempt, remaining + 1 =>
    match service attempt with
    | Attempt.failure =>
      let r := extractLoop service (attempt + 1) remaining
      ⟨r.result, r.attempts + 1, r.sleeps + 1⟩
    | Attempt.response content =>
      match jsonParse (cleanContent content) with
      | some v => ⟨v, 1, 0⟩
      | none =>
        let r := extractLoop service (attempt + 1) remaining
        ⟨r.result, r.attempts + 1, r.sleeps + 1⟩

/-- Embedding of `extract_triples(text, max_retries)`: run the retry loop
from attempt 0.  The function is total: no exception escapes to the
caller, matching the catch-all `except` of the source. -/
def extract_triples (service : Nat → Attempt) (max_retries : Nat) :
    ExtractTrace :=
  extractLoop service 0 max_retries

/-- Attempt number `n` fails: the service raises, or returns content that
does not parse as JSON after fence cleaning. -/
def attemptFails (service : Nat → Attempt) (n : Nat) : Prop :=
  service n = Attempt.failure ∨
    ∃ c, service n = Attempt.response c ∧ jsonParse (cleanContent c) = none

/-- Python truthiness of a JSON value, as used by `if triples:` in the
driver loop. -/
def jsonTruthy : Json → Bool
  | Json.jnull => false
  | Json.jbool b => b
  | Json.jnum raw =>
    !(raw.data.takeWhile fun c => !(c == 'e' || c == 'E')).all
      fun c => !isDigitCh c || c == '0'
  | Json.jstr s => !(s == "")
  | Json.jarr xs => !xs.isEmpty
  | Json.jobj fs => !fs.isEmpty

/-- The element sequence `list.extend` iterates over: array elements,
string characters, or object keys; `none` for the non-iterable values on
which `extend` raises `TypeError`. -/
def jsonIterElems : Json → Option (List Json)
  | Json.jarr xs => some xs
  | Json.jstr s => some (s.data.map fun c => Json.jstr ⟨[c]⟩)
  | Json.jobj fs => some (fs.map fun f => Json.jstr f.1)
  | _ => none

/-- Embedding of the driver loop of `extract_triples.py` (lines 87-98)
over the already-stripped non-empty abstracts, with `i` the position of
the current record: skip records shorter than 100 characters, call
`extract_triples` with the default 3 retries, and extend the accumulator
when the result is truthy.  Returns `none` when `extend` raises (the one
uncaught exception path); otherwise the accumulated triples and the
number of records visited. -/
def runDriverFrom (svc : Nat → Nat → Attempt) :
    Nat → List String → Option (List Json × Nat)
  | _, [] => some ([], 0)
  | i, line :: rest =>
    if line.length < 100 then
      (runDriverFrom svc (i + 1) rest).map fun p => (p.1, p.2 + 1)
    else
      let t := (extract_triples (svc i) 3).result
      if jsonTruthy t then
        match jsonIterElems t with
        | none => none
        | some el =>
          (runDriverFrom svc (i + 1) rest).map fun p => (el ++ p.1, p.2 + 1)
      else (runDriverFrom svc (i + 1) rest).map fun p => (p.1, p.2 + 1)

/-- The driver loop started at the first record. -/
def runDriver (svc : Nat → Nat → Attempt) (abstracts : List String) :
    Option (List Json × Nat) :=
  runDriverFrom svc 0 abstracts

/-- Observable outcome of running `extract_triples.py` as a script. -/
structure ExtractMainResult where
  exitCode : Nat
  wroteBatchFile : Bool
  batchJson : List Json

/-- Embedding of the `__main__` block of `extract_triples.py`
(lines 78-108).  When the corpus file is absent, the `except
FileNotFoundError` arm only prints an error message; control then falls
through to the `json.dump` call, which sits outside the `try`, so the
script still writes `extracted_triples.json` containing the empty
accumulator and terminates normally with exit status 0. -/
def extractMain (corpusFile : Option (List String))
    (svc : Nat → Nat → Attempt) : ExtractMainResult :=
  match corpusFile with
  | none => ⟨0, true, []⟩
  | some lines =>
    let abstracts := (lines.map pyStrip).filter fun l => !(l == "")
    match runDriver svc abstracts with
    | none => ⟨1, false, []⟩
    | some p => ⟨0, true, p.1⟩

/-- Observable outcome of running `load_neo4j.py` as a script, as far as
its file handling goes. -/
structure LoadMainOutcome where
  exitCode : Nat
  reachedLoad : Bool

/-- Embedding of the file handling of the `__main__` block of
`load_neo4j.py` (lines 37-43): when either input file is absent the
script prints an error and calls the bare `exit()`, which raises
`SystemExit(None)` and terminates the process with exit status 0; the
load phase is not reached. -/
def loadMain (triplesFile : Option (List Triple))
    (corpusFile : Option (List String)) : LoadMainOutcome :=
  match triplesFile, corpusFile with
  | some _, some _ => ⟨0, true⟩
  | _, _ => ⟨0, false⟩

/-! ## Derived notions used in the statements -/

/-- The backtick character (written by code point to keep it out of the
source text). -/
def btick : Char := '\x60'

/-- The subject node `add_triple` merges for a (valid) triple. -/
def subjNode (t : Triple) : NodeRef :=
  ⟨guess_label (t.subject.getD ""), t.subject.getD ""⟩

/-- The object node `add_triple` merges for a (valid) triple. -/
def objNode (t : Triple) : NodeRef :=
  ⟨guess_label (t.obj.getD ""), t.obj.getD ""⟩

/-- The sanitized relation-type tag of a (valid) triple. -/
def relKey (t : Triple) : String := relSanitize (t.relation.getD "")

/-- The identity of an edge: source node, relation-type tag, destination
node. -/
def edgeKey (e : Edge) : NodeRef × String × NodeRef := (e.src, e.relType, e.dst)

/-- The edge identity a triple gives rise to. -/
def tripleKey (t : Triple) : NodeRef × String × NodeRef :=
  (subjNode t, relKey t, objNode t)

/-- The wholly absent triple, used as the default of positional lookups. -/
def noneTriple : Triple := ⟨none, none, none⟩

/-- A triple is covered by a store when both its nodes and its edge
already exist there. -/
def covered (st : GraphStore) (t : Triple) : Prop :=
  subjNode t ∈ st.nodes ∧ objNode t ∈ st.nodes ∧
    hasEdge st.edges (subjNode t) (relKey t) (objNode t) = true

/-! ## Helper lemmas: lists and strings -/

lemma any_map_general {α β : Type} (f : α → β) (l : List α) (p : β → Bool) :
    (l.map f).any p = l.any (p ∘ f) := by
  induction l with
  | nil => rfl
  | cons a l ih => simp [List.any_cons, ih]

lemma isPrefixOf_append_self (l t : List Char) : l.isPrefixOf (l ++ t) = true := by
  induction l with
  | nil => simp [List.isPrefixOf]
  | cons c cs ih => simp [List.isPrefixOf, ih]

lemma isPrefixOf_cons_of_head_ne {hc c : Char} (tl rest : List Char)
    (h : c ≠ hc) : (hc :: tl).isPrefixOf (c :: rest) = false := by
  simp [List.isPrefixOf]
  intro hEq
  exact absurd hEq.symm h

lemma replaceGo_singleton (c0 c1 : Char) :
    ∀ (fuel : Nat) (l : List Char), l.length ≤ fuel →
      replaceGo [c0] [c1] fuel l = l.map fun c => if c = c0 then c1 else c := by
  intro fuel
  induction fuel with
  | zero =>
    intro l hl
    cases l with
    | nil => rfl
    | cons c rest => simp at hl
  | succ f ih =>
    intro l hl
    cases l with
    | nil => rfl
    | cons c rest =>
      have hrest : rest.length ≤ f := by
        simp only [List.length_cons] at hl; omega
      by_cases h : c = c0
      · subst h
        have hcond : ([c] : List Char) ≠ [] ∧ ([c] : List Char).isPrefixOf (c :: rest) = true :=
          ⟨by simp, by simp [List.isPrefixOf]⟩
        simp only [replaceGo, if_pos hcond, List.singleton_append, List.length_cons,
          List.length_nil, Nat.zero_add, Nat.sub_self, List.drop_zero]
        rw [ih rest hrest]
        simp [List.map_cons]
      · have hcond : ¬ (([c0] : List Char) ≠ [] ∧ ([c0] : List Char).isPrefixOf (c :: rest) = true) := by
          intro hx
          have := hx.2
          rw [isPrefixOf_cons_of_head_ne [] rest h] at this
          exact Bool.false_ne_true this
        simp only [replaceGo, if_neg hcond]
        rw [ih rest hrest]
        simp [List.map_cons, h]

/-! ## Helper lemmas: the loader loop -/

lemma runLoadFrom_loaded (corpus : List String) :
    ∀ (ts : List Triple) (i : Nat) (st : GraphStore),
      (runLoadFrom corpus i st ts).loaded = (ts.filter fun t => triValid t).length := by
  intro ts
  induction ts with
  | nil => intro i st; rfl
  | cons t rest ih =>
    intro i st
    cases h : triValid t with
    | true => simp [runLoadFrom, h, List.filter_cons, ih]
    | false => simp [runLoadFrom, h, List.filter_cons, ih]

lemma runLoadFrom_loaded_skipped (corpus : List String) :
    ∀ (ts : List Triple) (i : Nat) (st : GraphStore),
      (runLoadFrom corpus i st ts).loaded +
        (runLoadFrom corpus i st ts).skipped.length = ts.length := by
  intro ts
  induction ts with
  | nil => intro i st; rfl
  | cons t rest ih =>
    intro i st
    cases h : triValid t with
    | true =>
      simp only [runLoadFrom, h, if_true, List.length_cons]
      have := ih (i + 1) (applyTriple corpus i st t)
      omega
    | false =>
      simp only [runLoadFrom, h, Bool.false_eq_true, if_false, List.length_cons]
      have := ih (i + 1) st
      omega

lemma runLoadFrom_skipped_mem (corpus : List String) :
    ∀ (ts : List Triple) (i0 : Nat) (st : GraphStore) (i : Nat),
      i ∈ (runLoadFrom corpus i0 st ts).skipped ↔
        ∃ k : Nat, k < ts.length ∧ i = i0 + k ∧
          triValid (ts.getD k noneTriple) = false := by
  intro ts
  induction ts with
  | nil => intro i0 st i; simp [runLoadFrom]
  | cons t rest ih =>
    intro i0 st i
    cases h : triValid t with
    | true =>
      simp only [runLoadFrom, h, if_true]
      rw [ih (i0 + 1)]
      constructor
      · rintro ⟨k, hk, rfl, hv⟩
        exact ⟨k + 1, by simpa using Nat.succ_lt_succ hk, by omega,
          by simpa [List.getD_cons_succ] using hv⟩
      · rintro ⟨k, hk, hik, hv⟩
        cases k with
        | zero =>
          rw [List.getD_cons_zero] at hv
          rw [h] at hv
          exact absurd hv (by simp)
        | succ k =>
          exact ⟨k, by simpa using Nat.lt_of_succ_lt_succ hk, by omega,
            by simpa [List.getD_cons_succ] using hv⟩
    | false =>
      simp only [runLoadFrom, h, Bool.false_eq_true, if_false, List.mem_cons]
      rw [ih (i0 + 1)]
      constructor
      · rintro (rfl | ⟨k, hk, rfl, hv⟩)
        · exact ⟨0, by simp, by omega, by simpa [List.getD_cons_zero] using h⟩
        · exact ⟨k + 1, by simpa using Nat.succ_lt_succ hk, by omega,
            by simpa [List.getD_cons_succ] using hv⟩
      · rintro ⟨k, hk, hik, hv⟩
        cases k with
        | zero => exact Or.inl (by omega)
        | succ k =>
          exact Or.inr ⟨k, by simpa using Nat.lt_of_succ_lt_succ hk, by omega,
            by simpa [List.getD_cons_succ] using hv⟩

/-! ## Helper lemmas: MERGE semantics -/

lemma mem_mergeNode {x n : NodeRef} {ns : List NodeRef} :
    x ∈ mergeNode ns n ↔ x ∈ ns ∨ x = n := by
  unfold mergeNode
  by_cases h : n ∈ ns
  · rw [if_pos h]
    constructor
    · exact Or.inl
    · rintro (hx | rfl)
      · exact hx
      · exact h
  · rw [if_neg h]
    simp [List.mem_append]

lemma mergeNode_of_mem {n : NodeRef} {ns : List NodeRef} (h : n ∈ ns) :
    mergeNode ns n = ns := by
  unfold mergeNode
  exact if_pos h

lemma hasEdge_iff {es : List Edge} {a : NodeRef} {r : String} {b : NodeRef} :
    hasEdge es a r b = true ↔ ∃ e ∈ es, e.src = a ∧ e.relType = r ∧ e.dst = b := by
  simp [hasEdge, List.any_eq_true]

lemma hasEdge_eq_keys (es : List Edge) (a : NodeRef) (r : String) (b : NodeRef) :
    hasEdge es a r b = ((es.map edgeKey).any fun k => decide (k = (a, r, b))) := by
  rw [any_map_general]
  unfold hasEdge
  congr 1
  funext e
  simp only [Function.comp_apply, edgeKey, decide_eq_decide, Prod.mk.injEq]

lemma hasEdge_of_keys_eq {es es' : List Edge}
    (h : es.map edgeKey = es'.map edgeKey) (a : NodeRef) (r : String)
    (b : NodeRef) : hasEdge es a r b = hasEdge es' a r b := by
  rw [hasEdge_eq_keys, hasEdge_eq_keys, h]

lemma mergeEdge_keys_of_has {es : List Edge} {a : NodeRef} {r : String}
    {b : NodeRef} (ev : String) (h : hasEdge es a r b = true) :
    (mergeEdge es a r b ev).map edgeKey = es.map edgeKey := by
  unfold mergeEdge
  rw [if_pos h, List.map_map]
  apply List.map_congr_left
  intro e _
  by_cases hc : e.src = a ∧ e.relType = r ∧ e.dst = b
  · simp [hc, edgeKey]
  · simp [hc, edgeKey]

lemma mergeEdge_length_of_has {es : List Edge} {a : NodeRef} {r : String}
    {b : NodeRef} (ev : String) (h : hasEdge es a r b = true) :
    (mergeEdge es a r b ev).length = es.length := by
  unfold mergeEdge
  rw [if_pos h, List.length_map]

lemma mergeEdge_of_not_has {es : List Edge} {a : NodeRef} {r : String}
    {b : NodeRef} (ev : String) (h : hasEdge es a r b = false) :
    mergeEdge es a r b ev = es ++ [⟨a, r, b, ev⟩] := by
  unfold mergeEdge
  rw [if_neg (by simp [h])]

lemma mergeEdge_evidence_of_has {es : List Edge} {a : NodeRef} {r : String}
    {b : NodeRef} (ev : String) (h : hasEdge es a r b = true) :
    ∀ e ∈ mergeEdge es a r b ev, edgeKey e = (a, r, b) → e.evidence = ev := by
  unfold mergeEdge
  rw [if_pos h]
  intro e he hk
  rcases List.mem_map.mp he with ⟨e0, _, rfl⟩
  by_cases hc : e0.src = a ∧ e0.relType = r ∧ e0.dst = b
  · simp [hc]
  · rw [if_neg (by simpa using hc)] at hk ⊢
    exfalso
    apply hc
    simpa [edgeKey, Prod.ext_iff] using hk

lemma mergeEdge_exists_key (es : List Edge) (a : NodeRef) (r : String)
    (b : NodeRef) (ev : String) :
    ∃ e ∈ mergeEdge es a r b ev, edgeKey e = (a, r, b) := by
  cases hc : hasEdge es a r b with
  | false =>
    rw [mergeEdge_of_not_has ev hc]
    exact ⟨⟨a, r, b, ev⟩, by simp, rfl⟩
  | true =>
    rcases hasEdge_iff.mp hc with ⟨e0, he0, h1, h2, h3⟩
    unfold mergeEdge
    rw [if_pos hc]
    refine ⟨⟨e0.src, e0.relType, e0.dst, ev⟩, List.mem_map.mpr ⟨e0, he0, ?_⟩, ?_⟩
    · rw [if_pos (by simp [h1, h2, h3])]
    · simp [edgeKey, h1, h2, h3]

lemma hasEdge_mergeEdge_mono {es : List Edge} {a r b} (a' : NodeRef)
    (r' : String) (b' : NodeRef) (ev : String)
    (h : hasEdge es a r b = true) :
    hasEdge (mergeEdge es a' r' b' ev) a r b = true := by
  cases hc : hasEdge es a' r' b' with
  | true => rw [hasEdge_of_keys_eq (mergeEdge_keys_of_has ev hc)]; exact h
  | false =>
    rw [mergeEdge_of_not_has ev hc]
    rcases hasEdge_iff.mp h with ⟨e0, he0, hk⟩
    exact hasEdge_iff.mpr ⟨e0, List.mem_append_left _ he0, hk⟩

lemma key_mem_mergeEdge {k : NodeRef × String × NodeRef} {es : List Edge}
    {a : NodeRef} {r : String} {b : NodeRef} {ev : String}
    (h : k ∈ (mergeEdge es a r b ev).map edgeKey) :
    k ∈ es.map edgeKey ∨ k = (a, r, b) := by
  cases hc : hasEdge es a r b with
  | true =>
    rw [mergeEdge_keys_of_has ev hc] at h
    exact Or.inl h
  | false =>
    rw [mergeEdge_of_not_has ev hc, List.map_append] at h
    rcases List.mem_append.mp h with h1 | h2
    · exact Or.inl h1
    · simp only [List.map_cons, List.map_nil, List.mem_singleton] at h2
      exact Or.inr h2

lemma nodup_mergeEdge {es : List Edge} {a : NodeRef} {r : String}
    {b : NodeRef} (ev : String) (h : (es.map edgeKey).Nodup) :
    ((mergeEdge es a r b ev).map edgeKey).Nodup := by
  cases hc : hasEdge es a r b with
  | true => rw [mergeEdge_keys_of_has ev hc]; exact h
  | false =>
    rw [mergeEdge_of_not_has ev hc, List.map_append]
    rw [List.nodup_append]
    refine ⟨h, by simp, ?_⟩
    intro k hk hk2
    simp only [List.map_cons, List.map_nil, List.mem_singleton] at hk2
    subst hk2
    rcases List.mem_map.mp hk with ⟨e0, he0, hke⟩
    have : hasEdge es a r b = true := by
      refine hasEdge_iff.mpr ⟨e0, he0, ?_⟩
      simpa [edgeKey, Prod.ext_iff] using hke
    rw [hc] at this
    exact Bool.false_ne_true this

/-! ## Helper lemmas: the store across a load run -/

lemma applyTriple_def (corpus : List String) (idx : Nat) (st : GraphStore)
    (t : Triple) :
    applyTriple corpus idx st t =
      ⟨mergeNode (mergeNode st.nodes (subjNode t)) (objNode t),
       mergeEdge st.edges (subjNode t) (relKey t) (objNode t)
         (pyTake 250 (evidenceFor corpus idx))⟩ := rfl

lemma covered_applyTriple_self (corpus : List String) (idx : Nat)
    (st : GraphStore) (t : Triple) : covered (applyTriple corpus idx st t) t := by
  rw [applyTriple_def]
  refine ⟨mem_mergeNode.mpr (Or.inl (mem_mergeNode.mpr (Or.inr rfl))),
    mem_mergeNode.mpr (Or.inr rfl), ?_⟩
  rcases mergeEdge_exists_key st.edges (subjNode t) (relKey t) (objNode t)
    (pyTake 250 (evidenceFor corpus idx)) with ⟨e, he, hk⟩
  exact hasEdge_iff.mpr ⟨e, he, by simpa [edgeKey, Prod.ext_iff] using hk⟩

lemma covered_applyTriple_mono (corpus : List String) (idx : Nat)
    (st : GraphStore) (t t' : Triple) (h : covered st t) :
    covered (applyTriple corpus idx st t') t := by
  rw [applyTriple_def]
  obtain ⟨h1, h2, h3⟩ := h
  exact ⟨mem_mergeNode.mpr (Or.inl (mem_mergeNode.mpr (Or.inl h1))),
    mem_mergeNode.mpr (Or.inl (mem_mergeNode.mpr (Or.inl h2))),
    hasEdge_mergeEdge_mono _ _ _ _ h3⟩

lemma covered_runLoadFrom (corpus : List String) :
    ∀ (ts : List Triple) (i : Nat) (st : GraphStore) (t : Triple),
      covered st t → covered (runLoadFrom corpus i st ts).store t := by
  intro ts
  induction ts with
  | nil => intro i st t h; exact h
  | cons t0 rest ih =>
    intro i st t h
    cases h0 : triValid t0 with
    | true =>
      simp only [runLoadFrom, h0, if_true]
      exact ih (i + 1) _ t (covered_applyTriple_mono corpus i st t t0 h)
    | false =>
      simp only [runLoadFrom, h0, Bool.false_eq_true, if_false]
      exact ih (i + 1) st t h

lemma covered_all (corpus : List String) :
    ∀ (ts : List Triple) (i : Nat) (st : GraphStore),
      ∀ t ∈ ts, triValid t = true →
        covered (runLoadFrom corpus i st ts).store t := by
  intro ts
  induction ts with
  | nil => intro i st t ht; exact absurd ht (List.not_mem_nil t)
  | cons t0 rest ih =>
    intro i st t ht hv
    rcases List.mem_cons.mp ht with rfl | hmem
    · cases h0 : triValid t with
      | true =>
        simp only [runLoadFrom, h0, if_true]
        exact covered_runLoadFrom corpus rest (i + 1) _ t
          (covered_applyTriple_self corpus i st t)
      | false => rw [h0] at hv; exact absurd hv (by simp)
    · cases h0 : triValid t0 with
      | true =>
        simp only [runLoadFrom, h0, if_true]
        exact ih (i + 1) _ t hmem hv
      | false =>
        simp only [runLoadFrom, h0, Bool.false_eq_true, if_false]
        exact ih (i + 1) st t hmem hv

lemma secondPass (corpus : List String) :
    ∀ (ts : List Triple) (i : Nat) (st : GraphStore),
      (∀ t ∈ ts, triValid t = true → covered st t) →
      (runLoadFrom corpus i st ts).store.nodes = st.nodes ∧
      (runLoadFrom corpus i st ts).store.edges.map edgeKey =
        st.edges.map edgeKey := by
  intro ts
  induction ts with
  | nil => intro i st _; exact ⟨rfl, rfl⟩
  | cons t rest ih =>
    intro i st hcov
    cases h : triValid t with
    | false =>
      simp only [runLoadFrom, h, Bool.false_eq_true, if_false]
      exact ih (i + 1) st fun t' ht' hv => hcov t' (List.mem_cons_of_mem t ht') hv
    | true =>
      obtain ⟨hn1, hn2, he⟩ := hcov t (List.mem_cons_self t rest) h
      have hnodes : (applyTriple corpus i st t).nodes = st.nodes := by
        rw [applyTriple_def]
        show mergeNode (mergeNode st.nodes (subjNode t)) (objNode t) = st.nodes
        rw [mergeNode_of_mem hn1, mergeNode_of_mem hn2]
      have hkeys : (applyTriple corpus i st t).edges.map edgeKey =
          st.edges.map edgeKey := by
        rw [applyTriple_def]
        exact mergeEdge_keys_of_has _ he
      have hcov' : ∀ t' ∈ rest, triValid t' = true →
          covered (applyTriple corpus i st t) t' := by
        intro t' ht' hv
        obtain ⟨a1, a2, a3⟩ := hcov t' (List.mem_cons_of_mem t ht') hv
        refine ⟨?_, ?_, ?_⟩
        · rw [hnodes]; exact a1
        · rw [hnodes]; exact a2
        · rw [hasEdge_of_keys_eq hkeys]; exact a3
      obtain ⟨ihn, ihe⟩ := ih (i + 1) (applyTriple corpus i st t) hcov'
      simp only [runLoadFrom, h, if_true]
      exact ⟨by rw [ihn, hnodes], by rw [ihe, hkeys]⟩

lemma nodup_runLoadFrom (corpus : List String) :
    ∀ (ts : List Triple) (i : Nat) (st : GraphStore),
      (st.edges.map edgeKey).Nodup →
      ((runLoadFrom corpus i st ts).store.edges.map edgeKey).Nodup := by
  intro ts
  induction ts with
  | nil => intro i st h; exact h
  | cons t rest ih =>
    intro i st h
    cases h0 : triValid t with
    | true =>
      simp only [runLoadFrom, h0, if_true]
      refine ih (i + 1) _ ?_
      rw [applyTriple_def]
      exact nodup_mergeEdge _ h
    | false =>
      simp only [runLoadFrom, h0, Bool.false_eq_true, if_false]
      exact ih (i + 1) st h

lemma edge_provenance (corpus : List String) :
    ∀ (ts : List Triple) (i : Nat) (st : GraphStore) (e : Edge),
      e ∈ (runLoadFrom corpus i st ts).store.edges →
      edgeKey e ∈ st.edges.map edgeKey ∨
        ∃ k : Nat, k < ts.length ∧ triValid (ts.getD k noneTriple) = true ∧
          edgeKey e = tripleKey (ts.getD k noneTriple) := by
  intro ts
  induction ts with
  | nil =>
    intro i st e he
    exact Or.inl (List.mem_map_of_mem edgeKey he)
  | cons t rest ih =>
    intro i st e he
    cases h0 : triValid t with
    | false =>
      simp only [runLoadFrom, h0, Bool.false_eq_true, if_false] at he
      rcases ih (i + 1) st e he with h1 | ⟨k, hk, hv, hke⟩
      · exact Or.inl h1
      · exact Or.inr ⟨k + 1, by simpa using Nat.succ_lt_succ hk,
          by simpa [List.getD_cons_succ] using hv,
          by simpa [List.getD_cons_succ] using hke⟩
    | true =>
      simp only [runLoadFrom, h0, if_true] at he
      rcases ih (i + 1) _ e he with h1 | ⟨k, hk, hv, hke⟩
      · rw [applyTriple_def] at h1
        rcases key_mem_mergeEdge h1 with h2 | h2
        · exact Or.inl h2
        · exact Or.inr ⟨0, by simp, by simpa [List.getD_cons_zero] using h0,
            by simpa [List.getD_cons_zero, tripleKey] using h2⟩
      · exact Or.inr ⟨k + 1, by simpa using Nat.succ_lt_succ hk,
          by simpa [List.getD_cons_succ] using hv,
          by simpa [List.getD_cons_succ] using hke⟩

lemma pyTake_length (n : Nat) (s : String) :
    (pyTake n s).length = min n s.length := by
  show (s.data.take n).length = min n s.length
  rw [List.length_take]
  rfl

lemma evidence_bound_mergeEdge {es : List Edge} {a : NodeRef} {r : String}
    {b : NodeRef} {ev : String} (hev : ev.length ≤ 250)
    (h : ∀ e ∈ es, e.evidence.length ≤ 250) :
    ∀ e ∈ mergeEdge es a r b ev, e.evidence.length ≤ 250 := by
  intro e he
  cases hc : hasEdge es a r b with
  | true =>
    rw [mergeEdge] at he
    rw [if_pos hc] at he
    rcases List.mem_map.mp he with ⟨e0, he0, rfl⟩
    by_cases hp : e0.src = a ∧ e0.relType = r ∧ e0.dst = b
    · simp only [hp, decide_eq_true_eq, if_pos]
      simpa using hev
    · rw [if_neg (by simpa using hp)]
      exact h e0 he0
  | false =>
    rw [mergeEdge_of_not_has ev hc] at he
    rcases List.mem_append.mp he with h1 | h1
    · exact h e h1
    · rcases List.mem_singleton.mp h1 with rfl
      simpa using hev

lemma evidence_bound_runLoadFrom (corpus : List String) :
    ∀ (ts : List Triple) (i : Nat) (st : GraphStore),
      (∀ e ∈ st.edges, e.evidence.length ≤ 250) →
      ∀ e ∈ (runLoadFrom corpus i st ts).store.edges,
        e.evidence.length ≤ 250 := by
  intro ts
  induction ts with
  | nil => intro i st h; exact h
  | cons t rest ih =>
    intro i st h
    cases h0 : triValid t with
    | true =>
      simp only [runLoadFrom, h0, if_true]
      refine ih (i + 1) _ ?_
      rw [applyTriple_def]
      exact evidence_bound_mergeEdge (by rw [pyTake_length]; omega) h
    | false =>
      simp only [runLoadFrom, h0, Bool.false_eq_true, if_false]
      exact ih (i + 1) st h

lemma skipped_nil (corpus : List String) :
    ∀ (ts : List Triple) (i0 : Nat) (st : GraphStore),
      (∀ j : Nat, j < ts.length → triValid (ts.getD j noneTriple) = true) →
      (runLoadFrom corpus i0 st ts).skipped = [] := by
  intro ts
  induction ts with
  | nil => intro i0 st _; rfl
  | cons t rest ih =>
    intro i0 st hall
    have h0 : triValid t = true := by
      have := hall 0 (by simp)
      simpa [List.getD_cons_zero] using this
    simp only [runLoadFrom, h0, if_true]
    exact ih (i0 + 1) _ fun j hj => by
      have := hall (j + 1) (by simpa using Nat.succ_lt_succ hj)
      simpa [List.getD_cons_succ] using this

lemma skipped_unique (corpus : List String) :
    ∀ (ts : List Triple) (i0 : Nat) (st : GraphStore) (i : Nat),
      i < ts.length → triValid (ts.getD i noneTriple) = false →
      (∀ j : Nat, j < ts.length → j ≠ i →
        triValid (ts.getD j noneTriple) = true) →
      (runLoadFrom corpus i0 st ts).skipped = [i0 + i] := by
  intro ts
  induction ts with
  | nil => intro i0 st i hi; exact absurd hi (by simp)
  | cons t rest ih =>
    intro i0 st i hi hv hall
    cases i with
    | zero =>
      have h0 : triValid t = false := by simpa [List.getD_cons_zero] using hv
      simp only [runLoadFrom, h0, Bool.false_eq_true, if_false]
      have : (runLoadFrom corpus (i0 + 1) st rest).skipped = [] := by
        refine skipped_nil corpus rest (i0 + 1) st fun j hj => ?_
        have := hall (j + 1) (by simpa using Nat.succ_lt_succ hj) (by omega)
        simpa [List.getD_cons_succ] using this
      rw [this]
      simp
    | succ i =>
      have h0 : triValid t = true := by
        have := hall 0 (by simp) (by omega)
        simpa [List.getD_cons_zero] using this
      simp only [runLoadFrom, h0, if_true]
      have := ih (i0 + 1) (applyTriple corpus i0 st t) i
        (by simpa using Nat.lt_of_succ_lt_succ hi)
        (by simpa [List.getD_cons_succ] using hv)
        (fun j hj hne => by
          have := hall (j + 1) (by simpa using Nat.succ_lt_succ hj) (by omega)
          simpa [List.getD_cons_succ] using this)
      rw [this]
      congr 1
      omega

/-! ## The claims -/

/-- Claim C1: loading the same well-formed triple set twice into an empty
graph store yields exactly the same node count and edge count as loading
it once (the second pass over the triples leaves the node list and the
edge-key list of the store of the first pass unchanged); at most one edge
exists per (subject, relation-type, object) key; and `add_triple` creates
the nodes and the edge only if they do not already exist — when the edge
key exists the upsert keeps the edge count and only overwrites the
evidence attribute of the matching edge (last write wins), and when it
does not exist the edge is appended. -/
theorem C1_idempotent_load (ts : List Triple) (corpus : List String)
    (wf : ∀ t ∈ ts, triValid t = true) :
    ((runLoadFrom corpus 0 (runLoad ts corpus).store ts).store.nodes.length =
        (runLoad ts corpus).store.nodes.length ∧
      (runLoadFrom corpus 0 (runLoad ts corpus).store ts).store.edges.length =
        (runLoad ts corpus).store.edges.length) ∧
    ((runLoad ts corpus).store.edges.map edgeKey).Nodup ∧
    (∀ (st : GraphStore) (s sl r o ol ev : String),
      (⟨sl, s⟩ : NodeRef) ∈ st.nodes → (⟨ol, o⟩ : NodeRef) ∈ st.nodes →
      (add_triple st s sl r o ol ev).nodes = st.nodes) ∧
    (∀ (st : GraphStore) (s sl r o ol ev : String),
      hasEdge st.edges ⟨sl, s⟩ r ⟨ol, o⟩ = true →
      (add_triple st s sl r o ol ev).edges.length = st.edges.length ∧
      ∀ e ∈ (add_triple st s sl r o ol ev).edges,
        edgeKey e = (⟨sl, s⟩, r, ⟨ol, o⟩) → e.evidence = pyTake 250 ev) ∧
    (∀ (st : GraphStore) (s sl r o ol ev : String),
      hasEdge st.edges ⟨sl, s⟩ r ⟨ol, o⟩ = false →
      (add_triple st s sl r o ol ev).edges =
        st.edges ++ [⟨⟨sl, s⟩, r, ⟨ol, o⟩, pyTake 250 ev⟩]) := by
  refine ⟨?_, ?_, ?_, ?_, ?_⟩
  · have hcov : ∀ t ∈ ts, triValid t = true →
        covered (runLoad ts corpus).store t :=
      fun t ht hv => covered_all corpus ts 0 ⟨[], []⟩ t ht hv
    obtain ⟨hn, hk⟩ := secondPass corpus ts 0 (runLoad ts corpus).store hcov
    constructor
    · rw [hn]
    · have := congrArg List.length hk
      simpa [List.length_map] using this
  · exact nodup_runLoadFrom corpus ts 0 ⟨[], []⟩ (by simp)
  · intro st s sl r o ol ev h1 h2
    show mergeNode (mergeNode st.nodes ⟨sl, s⟩) ⟨ol, o⟩ = st.nodes
    rw [mergeNode_of_mem h1, mergeNode_of_mem h2]
  · intro st s sl r o ol ev h
    exact ⟨mergeEdge_length_of_has _ h, mergeEdge_evidence_of_has _ h⟩
  · intro st s sl r o ol ev h
    exact mergeEdge_of_not_has _ h

/-- Witness for C1 at a concrete well-formed batch. -/
theorem C1_idempotent_load_witness :
    (runLoadFrom ["line one"] 0
        (runLoad [Triple.mk (some "APOE4") (some "impairs")
          (some "amyloid clearance")] ["line one"]).store
        [Triple.mk (some "APOE4") (some "impairs")
          (some "amyloid clearance")]).store.nodes.length =
      (runLoad [Triple.mk (some "APOE4") (some "impairs")
        (some "amyloid clearance")] ["line one"]).store.nodes.length :=
  (C1_idempotent_load
    [Triple.mk (some "APOE4") (some "impairs") (some "amyloid clearance")]
    ["line one"] (by decide)).1.1

/-- Claim C3: `guess_label` is a deterministic pure function into the
closed set containing Gene, Pathology, Disease, Symptom and Other, testing
the keyword sets in the fixed priority order with Gene first, and it maps
the five sample names to the expected labels. -/
theorem C3_guess_label_closed_set (name : String) :
    (guess_label name = "Gene" ∨ guess_label name = "Pathology" ∨
      guess_label name = "Disease" ∨ guess_label name = "Symptom" ∨
      guess_label name = "Other") ∧
    (strIn "apoe" (pyLower name) = true → guess_label name = "Gene") ∧
    guess_label "APOE4 allele" = "Gene" ∧
    guess_label "amyloid-β plaque deposition" = "Pathology" ∧
    guess_label "Alzheimer's disease" = "Disease" ∧
    guess_label "cognitive decline" = "Symptom" ∧
    guess_label "xyz123" = "Other" := by
  refine ⟨?_, ?_, by decide, by decide, by decide, by decide, by decide⟩
  · unfold guess_label
    dsimp only
    split_ifs <;> simp
  · intro h
    have hany : (["apoe", "psen", "gene"].any
        fun term => strIn term (pyLower name)) = true := by
      simp [List.any_cons, h]
    simp [guess_label, hany]

/-- Witness for C3: the Gene priority branch at a concrete name. -/
theorem C3_guess_label_closed_set_witness : guess_label "APOE4" = "Gene" :=
  (C3_guess_label_closed_set "APOE4").2.1 (by decide)

/-- Claim C4: the loader canonicalizes every relation string by
uppercasing it and replacing every space and every hyphen by an
underscore — character by character — and the sample phrase maps to
IS_STRONGEST_GENETIC_RISK_FACTOR_FOR. -/
theorem C4_relation_canonicalization :
    relSanitize "is strongest genetic risk factor for" =
      "IS_STRONGEST_GENETIC_RISK_FACTOR_FOR" ∧
    ∀ r : String, (relSanitize r).data =
      r.data.map fun c =>
        if c.toUpper = ' ' then '_'
        else if c.toUpper = '-' then '_' else c.toUpper := by
  refine ⟨by decide, fun r => ?_⟩
  show replaceAll ['-'] ['_'] (replaceAll [' '] ['_'] ((pyUpper r).data)) = _
  rw [show (pyUpper r).data = r.data.map Char.toUpper from rfl]
  simp only [replaceAll]
  rw [replaceGo_singleton ' ' '_' _ _ (le_refl _)]
  rw [replaceGo_singleton '-' '_' _ _ (le_refl _)]
  rw [List.map_map, List.map_map]
  congr 1
  funext c
  by_cases h1 : c.toUpper = ' '
  · simp [Function.comp, h1]
  · by_cases h2 : c.toUpper = '-'
    · simp [Function.comp, h1, h2]
    · simp [Function.comp, h1, h2]

/-- Claim C5: the loader processes triples in input order; exactly the
triples failing the truthiness validation are skipped with a warning
naming their index; every edge of the final store originates from a valid
triple (skipped triples write nothing); every valid triple of the batch
ends up covered by the final store; and a batch with exactly one
malformed triple reports exactly that one skip and loads the other
`length - 1` triples. -/
theorem C5_malformed_triple_skip (ts : List Triple) (corpus : List String) :
    (∀ i : Nat, i ∈ (runLoad ts corpus).skipped ↔
      i < ts.length ∧ triValid (ts.getD i noneTriple) = false) ∧
    (∀ e ∈ (runLoad ts corpus).store.edges, ∃ k : Nat, k < ts.length ∧
      triValid (ts.getD k noneTriple) = true ∧
      edgeKey e = tripleKey (ts.getD k noneTriple)) ∧
    (∀ t ∈ ts, triValid t = true → covered (runLoad ts corpus).store t) ∧
    (∀ i : Nat, i < ts.length → triValid (ts.getD i noneTriple) = false →
      (∀ j : Nat, j < ts.length → j ≠ i →
        triValid (ts.getD j noneTriple) = true) →
      (runLoad ts corpus).skipped = [i] ∧
      (runLoad ts corpus).loaded = ts.length - 1) := by
  refine ⟨?_, ?_, ?_, ?_⟩
  · intro i
    rw [runLoad, runLoadFrom_skipped_mem]
    constructor
    · rintro ⟨k, hk, rfl, hv⟩
      exact ⟨by omega, by simpa using hv⟩
    · rintro ⟨hi, hv⟩
      exact ⟨i, hi, by omega, hv⟩
  · intro e he
    rcases edge_provenance corpus ts 0 ⟨[], []⟩ e he with h1 | h2
    · simp at h1
    · exact h2
  · intro t ht hv
    exact covered_all corpus ts 0 ⟨[], []⟩ t ht hv
  · intro i hi hv hall
    have hs : (runLoad ts corpus).skipped = [0 + i] :=
      skipped_unique corpus ts 0 ⟨[], []⟩ i hi hv hall
    rw [Nat.zero_add] at hs
    refine ⟨hs, ?_⟩
    have := runLoadFrom_loaded_skipped corpus ts 0 ⟨[], []⟩
    rw [runLoad, hs] at *
    simp only [List.length_singleton] at this
    omega

/-- Witness for C5 at a batch whose second triple misses its object. -/
theorem C5_malformed_triple_skip_witness :
    (runLoad [Triple.mk (some "APOE4") (some "impairs") (some "clearance"),
        Triple.mk (some "x") (some "r") none] []).skipped = [1] ∧
    (runLoad [Triple.mk (some "APOE4") (some "impairs") (some "clearance"),
        Triple.mk (some "x") (some "r") none] []).loaded = 1 :=
  (C5_malformed_triple_skip
    [Triple.mk (some "APOE4") (some "impairs") (some "clearance"),
      Triple.mk (some "x") (some "r") none] []).2.2.2 1 (by decide) (by decide)
    (by decide)

/-- Claim C6: the evidence for the triple at position idx is the corpus
line at index idx modulo the corpus length when the corpus is non-empty
and the fixed placeholder when it is empty; every evidence string stored
in the graph is at most 250 characters; and the slice taken by
`add_triple` truncates a longer string to exactly 250 characters. -/
theorem C6_evidence_truncation (corpus : List String) (idx : Nat) :
    (corpus = [] → evidenceFor corpus idx = "No evidence text available.") ∧
    (corpus ≠ [] →
      evidenceFor corpus idx = corpus.getD (idx % corpus.length) "") ∧
    (∀ (ts : List Triple), ∀ e ∈ (runLoad ts corpus).store.edges,
      e.evidence.length ≤ 250) ∧
    (∀ ev : String, (pyTake 250 ev).length ≤ 250 ∧
      (250 < ev.length → (pyTake 250 ev).length = 250)) := by
  refine ⟨?_, ?_, ?_, ?_⟩
  · intro h
    simp [evidenceFor, h]
  · intro h
    simp [evidenceFor, h]
  · intro ts e he
    exact evidence_bound_runLoadFrom corpus ts 0 ⟨[], []⟩ (by simp) e he
  · intro ev
    constructor
    · rw [pyTake_length]; omega
    · intro h; rw [pyTake_length]; omega

/-- Witness for C6 at a singleton corpus and an over-long evidence
string. -/
theorem C6_evidence_truncation_witness :
    evidenceFor ["only line"] 5 = ["only line"].getD (5 % 1) "" ∧
    (pyTake 250 ⟨List.replicate 251 'a'⟩).length = 250 :=
  ⟨(C6_evidence_truncation ["only line"] 5).2.1 (by decide),
    ((C6_evidence_truncation ["only line"] 5).2.2.2
      ⟨List.replicate 251 'a'⟩).2
      (by show 250 < (List.replicate 251 'a').length
          rw [List.length_replicate]
          omega)⟩

/-- Claim C7 (behavior at the failing input): with the corpus file
absent, the extraction script still reports exit status 0 and still
writes the batch file, containing the empty array — the `json.dump` call
sits outside the `try` block and the `except` arm only prints — and with
an input file absent the load script terminates via the bare `exit()`,
whose `SystemExit(None)` yields exit status 0 (it does reach no load
work).  This contradicts the claimed non-zero exit status and absence of
output. -/
theorem C7_missing_file_exit_status :
    (extractMain none fun _ _ => Attempt.failure).exitCode = 0 ∧
    (extractMain none fun _ _ => Attempt.failure).wroteBatchFile = true ∧
    (extractMain none fun _ _ => Attempt.failure).batchJson = [] ∧
    (loadMain none (some [])).exitCode = 0 ∧
    (loadMain none (some [])).reachedLoad = false ∧
    (loadMain (some []) none).exitCode = 0 :=
  ⟨rfl, rfl, rfl, rfl, rfl, rfl⟩

/-- Claim C9, counterexample: at a batch holding exactly one malformed
triple the load pass reports 1 (the size of the input batch, printed
before the loop) while 0 triples are loaded, so the reported number is
not the count of successfully loaded triples. -/
theorem C9_reported_count_cex :
    ¬ (reportedCount [Triple.mk (some "a") (some "r") none] =
        (runLoad [Triple.mk (some "a") (some "r") none] []).loaded) := by
  decide

/-- Claim C9 as amended: the load pass reports the total size of the
input batch, not the loaded count; the number of successfully loaded
triples equals the number of triples passing validation, the loaded and
skipped counts partition the batch, and the reported number coincides
with the loaded count exactly when every triple is well-formed. -/
theorem C9_loaded_count (ts : List Triple) (corpus : List String) :
    reportedCount ts = ts.length ∧
    (runLoad ts corpus).loaded = (ts.filter fun t => triValid t).length ∧
    (runLoad ts corpus).loaded + (runLoad ts corpus).skipped.length =
      ts.length ∧
    ((∀ t ∈ ts, triValid t = true) →
      reportedCount ts = (runLoad ts corpus).loaded) := by
  refine ⟨rfl, runLoadFrom_loaded corpus ts 0 ⟨[], []⟩,
    runLoadFrom_loaded_skipped corpus ts 0 ⟨[], []⟩, ?_⟩
  intro h
  rw [runLoad, runLoadFrom_loaded corpus ts 0 ⟨[], []⟩]
  rw [List.filter_length_eq_length.mpr h]
  rfl

/-- Witness for C9 at a concrete all-valid batch. -/
theorem C9_loaded_count_witness :
    reportedCount [Triple.mk (some "a") (some "r") (some "o")] =
      (runLoad [Triple.mk (some "a") (some "r") (some "o")] []).loaded :=
  (C9_loaded_count [Triple.mk (some "a") (some "r") (some "o")] []).2.2.2
    (by decide)

/-- Claim C10: a triple whose subject, relation or object field is the
empty string fails the truthiness validation exactly like a missing
field: it is warned about (its index is in the skipped list) and nothing
is written to the store for it — every edge of the final store originates
from a triple that passed validation. -/
theorem C10_empty_string_fields (ts : List Triple) (corpus : List String)
    (i : Nat) (hi : i < ts.length)
    (he : (ts.getD i noneTriple).subject = some "" ∨
      (ts.getD i noneTriple).relation = some "" ∨
      (ts.getD i noneTriple).obj = some "") :
    triValid (ts.getD i noneTriple) = false ∧
    i ∈ (runLoad ts corpus).skipped ∧
    ∀ e ∈ (runLoad ts corpus).store.edges, ∃ k : Nat, k < ts.length ∧
      triValid (ts.getD k noneTriple) = true ∧
      edgeKey e = tripleKey (ts.getD k noneTriple) := by
  have hv : triValid (ts.getD i noneTriple) = false := by
    rcases he with h | h | h <;> (unfold triValid; rw [h]; simp [truthy])
  refine ⟨hv, ?_, ?_⟩
  · rw [runLoad, runLoadFrom_skipped_mem]
    exact ⟨i, hi, by omega, hv⟩
  · intro e he'
    rcases edge_provenance corpus ts 0 ⟨[], []⟩ e he' with h1 | h2
    · simp at h1
    · exact h2

/-- Witness for C10 at a batch whose only triple has an empty subject. -/
theorem C10_empty_string_fields_witness :
    triValid ([Triple.mk (some "") (some "r") (some "o")].getD 0 noneTriple)
        = false ∧
    0 ∈ (runLoad [Triple.mk (some "") (some "r") (some "o")] []).skipped :=
  ⟨(C10_empty_string_fields [Triple.mk (some "") (some "r") (some "o")] [] 0
      (by decide) (Or.inl (by decide))).1,
    (C10_empty_string_fields [Triple.mk (some "") (some "r") (some "o")] [] 0
      (by decide) (Or.inl (by decide))).2.1⟩

/-! ## Helper lemmas: the retry loop and the driver -/

lemma extractLoop_all_fail (service : Nat → Attempt) :
    ∀ (k start : Nat), (∀ n, n < k → attemptFails service (start + n)) →
      extractLoop service start k = ⟨Json.jarr [], k, k⟩ := by
  intro k
  induction k with
  | zero => intro start _; rfl
  | succ k ih =>
    intro start hfail
    have hrec : extractLoop service (start + 1) k = ⟨Json.jarr [], k, k⟩ := by
      refine ih (start + 1) fun n hn => ?_
      have := hfail (n + 1) (by omega)
      rwa [show start + (n + 1) = start + 1 + n by omega] at this
    have h0 := hfail 0 (by omega)
    rw [Nat.add_zero] at h0
    rcases h0 with h | ⟨c, hc, hp⟩
    · simp only [extractLoop, h, hrec]
    · simp only [extractLoop, hc, hp, hrec]

lemma runDriverFrom_all_fail (svc : Nat → Nat → Attempt)
    (hfail : ∀ i n, attemptFails (svc i) n) :
    ∀ (abstracts : List String) (i : Nat),
      runDriverFrom svc i abstracts = some ([], abstracts.length) := by
  intro abstracts
  induction abstracts with
  | nil => intro i; rfl
  | cons line rest ih =>
    intro i
    by_cases hl : line.length < 100
    · simp only [runDriverFrom, if_pos hl, ih (i + 1)]
      rfl
    · have hx : (extract_triples (svc i) 3).result = Json.jarr [] := by
        rw [extract_triples, extractLoop_all_fail (svc i) 3 0
          (fun n _ => by simpa using hfail i n)]
      simp only [runDriverFrom, if_neg hl, hx]
      have ht : jsonTruthy (Json.jarr []) = false := rfl
      rw [ht]
      simp only [Bool.false_eq_true, if_false, ih (i + 1)]
      rfl

/-- Claim C2: if every attempt fails — the service raises, or its
response does not parse as JSON — then `extract_triples` makes exactly
`max_retries` attempts, sleeps after each of them, returns the empty
array, and, being a total function, propagates no exception; and the
driver loop over any corpus with an always-failing service visits every
record, accumulates nothing, and never aborts. -/
theorem C2_retry_exhaustion (service : Nat → Attempt) (mr : Nat)
    (hmr : 1 ≤ mr) (hfail : ∀ n, n < mr → attemptFails service n) :
    extract_triples service mr = ⟨Json.jarr [], mr, mr⟩ ∧
    ∀ (svc : Nat → Nat → Attempt) (abstracts : List String),
      (∀ i n, attemptFails (svc i) n) →
      runDriver svc abstracts = some ([], abstracts.length) := by
  constructor
  · rw [extract_triples]
    exact extractLoop_all_fail service mr 0 fun n hn => by simpa using hfail n hn
  · intro svc abstracts h
    exact runDriverFrom_all_fail svc h abstracts 0

/-- Witness for C2: a service that always raises, with the default three
retries, and a driver run over one long-enough record. -/
theorem C2_retry_exhaustion_witness :
    extract_triples (fun _ => Attempt.failure) 3 = ⟨Json.jarr [], 3, 3⟩ ∧
    runDriver (fun _ _ => Attempt.failure) [⟨List.replicate 100 'a'⟩] =
      some ([], 1) :=
  ⟨(C2_retry_exhaustion (fun _ => Attempt.failure) 3 (by decide)
      (fun _ _ => Or.inl rfl)).1,
    (C2_retry_exhaustion (fun _ => Attempt.failure) 3 (by decide)
      (fun _ _ => Or.inl rfl)).2 (fun _ _ => Attempt.failure)
      [⟨List.replicate 100 'a'⟩] (fun _ _ => Or.inl rfl)⟩

/-! ## Helper lemmas: substring search and splitting -/

lemma listIn_of_append (sep : List Char) :
    ∀ (a b : List Char), listIn sep (a ++ sep ++ b) = true := by
  intro a
  induction a with
  | nil =>
    intro b
    cases sep with
    | nil =>
      cases b with
      | nil => rfl
      | cons c bs => rfl
    | cons s ss =>
      show ((s :: ss).isPrefixOf (s :: (ss ++ b)) || _) = true
      rw [show (s :: (ss ++ b)) = (s :: ss) ++ b from rfl,
        isPrefixOf_append_self]
      rfl
  | cons c a' ih =>
    intro b
    show ((sep.isPrefixOf (c :: (a' ++ sep ++ b))) || listIn sep (a' ++ sep ++ b)) = true
    rw [ih b, Bool.or_true]

lemma listIn_eq_false_of_head_notin (hc : Char) (tl : List Char) :
    ∀ m : List Char, (∀ c ∈ m, c ≠ hc) → listIn (hc :: tl) m = false := by
  intro m
  induction m with
  | nil => intro _; rfl
  | cons c rest ih =>
    intro h
    show ((hc :: tl).isPrefixOf (c :: rest) || listIn (hc :: tl) rest) = false
    rw [isPrefixOf_cons_of_head_ne tl rest (h c (List.mem_cons_self c rest)),
      ih fun x hx => h x (List.mem_cons_of_mem c hx)]
    rfl

lemma pySplitGo_fuel (sep : List Char) :
    ∀ (f1 : Nat) (l : List Char) (f2 : Nat), l.length ≤ f1 → l.length ≤ f2 →
      pySplitGo sep f1 l = pySplitGo sep f2 l := by
  intro f1
  induction f1 with
  | zero =>
    intro l f2 h1 h2
    cases l with
    | nil => cases f2 <;> rfl
    | cons c rest => simp at h1
  | succ f ih =>
    intro l f2 h1 h2
    cases l with
    | nil => cases f2 <;> rfl
    | cons c rest =>
      cases f2 with
      | zero => simp at h2
      | succ f2' =>
        have hr1 : rest.length ≤ f := by simp at h1; omega
        have hr2 : rest.length ≤ f2' := by simp at h2; omega
        by_cases hcond : sep ≠ [] ∧ sep.isPrefixOf (c :: rest) = true
        · simp only [pySplitGo, if_pos hcond]
          congr 1
          refine ih _ _ ?_ ?_
          · rw [List.length_drop]; omega
          · rw [List.length_drop]; omega
        · simp only [pySplitGo, if_neg hcond]
          rw [ih rest f2' hr1 hr2]

lemma pySplitL_append (hc : Char) (tl : List Char) :
    ∀ (a b : List Char), (∀ c ∈ a, c ≠ hc) →
      pySplitL (hc :: tl) (a ++ (hc :: tl) ++ b) =
        a :: pySplitL (hc :: tl) b := by
  intro a
  induction a with
  | nil =>
    intro b _
    show pySplitGo (hc :: tl) (((hc :: tl) ++ b).length) ((hc :: tl) ++ b) = _
    rw [show ((hc :: tl) ++ b) = hc :: (tl ++ b) from rfl]
    rw [show (hc :: (tl ++ b)).length = (tl ++ b).length + 1 from rfl]
    have hcond : (hc :: tl) ≠ [] ∧
        (hc :: tl).isPrefixOf (hc :: (tl ++ b)) = true :=
      ⟨by simp, by
        rw [show (hc :: (tl ++ b)) = (hc :: tl) ++ b from rfl]
        exact isPrefixOf_append_self _ b⟩
    simp only [pySplitGo, if_pos hcond]
    rw [show (hc :: tl).length - 1 = tl.length from rfl, List.drop_left]
    rw [pySplitGo_fuel (hc :: tl) ((tl ++ b).length) b (b.length)
      (by rw [List.length_append]; omega) (le_refl _)]
    rfl
  | cons c a' ih =>
    intro b hno
    have hcne : c ≠ hc := hno c (List.mem_cons_self c a')
    show pySplitGo (hc :: tl) ((c :: (a' ++ (hc :: tl) ++ b)).length)
        (c :: (a' ++ (hc :: tl) ++ b)) = _
    rw [show (c :: (a' ++ (hc :: tl) ++ b)).length =
      (a' ++ (hc :: tl) ++ b).length + 1 from rfl]
    have hcond : ¬ ((hc :: tl) ≠ [] ∧
        (hc :: tl).isPrefixOf (c :: (a' ++ (hc :: tl) ++ b)) = true) := by
      intro hx
      rw [isPrefixOf_cons_of_head_ne tl _ hcne] at hx
      exact Bool.false_ne_true hx.2
    simp only [pySplitGo, if_neg hcond]
    rw [show pySplitGo (hc :: tl) ((a' ++ (hc :: tl) ++ b).length)
        (a' ++ (hc :: tl) ++ b) =
      pySplitL (hc :: tl) (a' ++ (hc :: tl) ++ b) from rfl]
    rw [ih b fun x hx => hno x (List.mem_cons_of_mem c hx)]

lemma pySplitGo_no_occ (sep : List Char) :
    ∀ (fuel : Nat) (m : List Char), m.length ≤ fuel →
      listIn sep m = false → pySplitGo sep fuel m = [m] := by
  intro fuel
  induction fuel with
  | zero =>
    intro m h1 _
    cases m with
    | nil => rfl
    | cons c rest => simp at h1
  | succ f ih =>
    intro m h1 hocc
    cases m with
    | nil => rfl
    | cons c rest =>
      have hparts : sep.isPrefixOf (c :: rest) = false ∧
          listIn sep rest = false := by
        have : (sep.isPrefixOf (c :: rest) || listIn sep rest) = false := hocc
        constructor
        · cases hp : sep.isPrefixOf (c :: rest)
          · rfl
          · rw [hp, Bool.true_or] at this; exact absurd this (by simp)
        · cases hp : listIn sep rest
          · rfl
          · rw [hp, Bool.or_true] at this; exact absurd this (by simp)
      have hcond : ¬ (sep ≠ [] ∧ sep.isPrefixOf (c :: rest) = true) := by
        intro hx
        rw [hparts.1] at hx
        exact Bool.false_ne_true hx.2
      simp only [pySplitGo, if_neg hcond]
      rw [ih rest (by simp at h1; omega) hparts.2]

lemma pySplitL_no_occ (sep m : List Char) (hocc : listIn sep m = false) :
    pySplitL sep m = [m] :=
  pySplitGo_no_occ sep m.length m (le_refl _) hocc

lemma no_json_marker (p q : List Char)
    (hp : ∀ c ∈ p, c ≠ btick) (hq : ∀ c ∈ q, c ≠ btick)
    (hj : ∀ c ∈ q.take 1, c ≠ 'j') :
    listIn (btick :: btick :: btick :: 'j' :: 's' :: 'o' :: 'n' :: [])
      (p ++ (btick :: btick :: btick :: q)) = false := by
  induction p with
  | nil =>
    cases q with
    | nil => decide
    | cons c q' =>
      have hcb : c ≠ btick := hq c (List.mem_cons_self c q')
      have hcj : c ≠ 'j' := hj c (by simp [List.take])
      have hbc : ((btick : Char) == c) = false :=
        beq_eq_false_iff_ne.mpr (Ne.symm hcb)
      have hjc : (('j' : Char) == c) = false :=
        beq_eq_false_iff_ne.mpr (Ne.symm hcj)
      have htail : listIn
          (btick :: btick :: btick :: 'j' :: 's' :: 'o' :: 'n' :: [])
          (c :: q') = false :=
        listIn_eq_false_of_head_notin btick _ (c :: q') hq
      have htail' : listIn
          (btick :: btick :: btick :: 'j' :: 's' :: 'o' :: 'n' :: [])
          q' = false :=
        listIn_eq_false_of_head_notin btick _ q'
          fun x hx => hq x (List.mem_cons_of_mem c hx)
      simp only [List.nil_append, listIn, List.isPrefixOf, hbc, hjc, htail,
        htail', beq_self_eq_true, Bool.true_and, Bool.and_false,
        Bool.false_and, Bool.or_false, Bool.false_or]
  | cons c p' ih =>
    have hcb : c ≠ btick := hp c (List.mem_cons_self c p')
    show ((btick :: btick :: btick :: 'j' :: 's' :: 'o' :: 'n' :: []).isPrefixOf
        (c :: (p' ++ (btick :: btick :: btick :: q))) ||
      listIn (btick :: btick :: btick :: 'j' :: 's' :: 'o' :: 'n' :: [])
        (p' ++ (btick :: btick :: btick :: q))) = false
    rw [isPrefixOf_cons_of_head_ne _ _ hcb,
      ih fun x hx => hp x (List.mem_cons_of_mem c hx)]
    rfl

lemma cleanContent_fenced (pre p post : String)
    (hpre : ∀ c ∈ pre.data, c ≠ btick) (hp : ∀ c ∈ p.data, c ≠ btick)
    (hpost : ∀ c ∈ post.data, c ≠ btick)
    (hj : ∀ c ∈ post.data.take 1, c ≠ 'j') :
    cleanContent (pre ++ "```json" ++ p ++ "```" ++ post) = p := by
  have hdata : (pre ++ "```json" ++ p ++ "```" ++ post).data =
      pre.data ++
        (btick :: btick :: btick :: 'j' :: 's' :: 'o' :: 'n' :: []) ++
        (p.data ++ (btick :: btick :: btick :: []) ++ post.data) := by
    simp only [String.data_append]
    simp [btick, List.append_assoc]
  have hM : listIn (btick :: btick :: btick :: 'j' :: 's' :: 'o' :: 'n' :: [])
      (p.data ++ (btick :: btick :: btick :: []) ++ post.data) = false := by
    have h0 := no_json_marker p.data post.data hp hpost hj
    rw [show p.data ++ (btick :: btick :: btick :: []) ++ post.data =
      p.data ++ (btick :: btick :: btick :: post.data) by
        simp [List.append_assoc]]
    exact h0
  have hstr : strIn "```json" (pre ++ "```json" ++ p ++ "```" ++ post) = true := by
    rw [strIn, hdata,
      show ("```json" : String).data =
        btick :: btick :: btick :: 'j' :: 's' :: 'o' :: 'n' :: [] from rfl]
    exact listIn_of_append _ pre.data _
  unfold cleanContent
  rw [if_pos hstr]
  rw [show ("```json" : String).data =
      btick :: btick :: btick :: 'j' :: 's' :: 'o' :: 'n' :: [] from rfl,
    show ("```" : String).data = btick :: btick :: btick :: [] from rfl,
    hdata]
  rw [pySplitL_append btick (btick :: btick :: 'j' :: 's' :: 'o' :: 'n' :: [])
    pre.data _ hpre]
  rw [show ((pre.data :: pySplitL
      (btick :: btick :: btick :: 'j' :: 's' :: 'o' :: 'n' :: [])
      (p.data ++ (btick :: btick :: btick :: []) ++ post.data)).getD 1 []) =
    ((pySplitL (btick :: btick :: btick :: 'j' :: 's' :: 'o' :: 'n' :: [])
      (p.data ++ (btick :: btick :: btick :: []) ++ post.data)).getD 0 [])
    from rfl]
  rw [pySplitL_no_occ _ _ hM, List.getD_cons_zero]
  show (⟨(pySplitL (btick :: btick :: btick :: [])
      (p.data ++ (btick :: btick :: btick :: []) ++ post.data)).getD 0 []⟩ :
    String) = p
  rw [pySplitL_append btick (btick :: btick :: []) p.data post.data hp]
  rfl

/-- Claim C8, counterexample: the code only strips fences that carry the
json language tag.  The response wrapping the well-formed JSON array `[]`
in a plain markdown fence is left unchanged by the cleaning step, and the
attempt counts as a parse failure. -/
theorem C8_fence_strip_cex :
    jsonParse "[]" = some (Json.jarr []) ∧
    cleanContent "```\n[]\n```" = "```\n[]\n```" ∧
    jsonParse (cleanContent "```\n[]\n```") = none :=
  ⟨rfl, rfl, rfl⟩

/-- Claim C8 as amended: whenever the response wraps the JSON payload in
a fence labelled json — any backtick-free lead-in, the marker, a
backtick-free payload, the closing fence and a backtick-free trailer not
starting with the letter j — the extractor strips the fence before
parsing, so a payload that parses as JSON yields a successful attempt
returning the parsed value. -/
theorem C8_json_fence_strip (pre p post : String) (v : Json)
    (hpre : ∀ c ∈ pre.data, c ≠ btick) (hp : ∀ c ∈ p.data, c ≠ btick)
    (hpost : ∀ c ∈ post.data, c ≠ btick)
    (hj : ∀ c ∈ post.data.take 1, c ≠ 'j')
    (hparse : jsonParse p = some v) :
    cleanContent (pre ++ "```json" ++ p ++ "```" ++ post) = p ∧
    jsonParse (cleanContent (pre ++ "```json" ++ p ++ "```" ++ post)) =
      some v := by
  have h := cleanContent_fenced pre p post hpre hp hpost hj
  exact ⟨h, by rw [h, hparse]⟩

/-- Witness for C8 at the concrete response wrapping the empty JSON array
in a json-labelled fence. -/
theorem C8_json_fence_strip_witness :
    cleanContent ("response: " ++ "```json" ++ "[]" ++ "```" ++ "\n") = "[]" ∧
    jsonParse (cleanContent ("response: " ++ "```json" ++ "[]" ++ "```" ++ "\n")) =
      some (Json.jarr []) :=
  C8_json_fence_strip "response: " "[]" "\n" (Json.jarr []) (by decide)
    (by decide) (by decide) (by decide) rfl
